import Mathlib

/-!
Shallow embedding of the `embedded-graphics-framebuf` crate
(`src/lib.rs` and `src/backends.rs`).

Modelling conventions:
  * `usize` values are modelled as `Nat`; `i32` values as `Int`.
  * The cast `n as i32` from a `usize` is `i32OfUsize` (wrap modulo 2^32 into
    the signed range); the cast `v as usize` from an `i32` is `usizeOfI32`
    (two's-complement reinterpretation modulo 2^64, as on a 64-bit host).
  * Rust panics (out-of-bounds slice indexing, the `assert_eq!` in
    `FrameBuf::new`, division by zero in `PixelIterator::next`) are modelled
    by `Option`: `none` is a panic.
  * `u16::to_be`/`to_le`/`from_be`/`from_le` depend on the host's byte order,
    so the endianness-related definitions take a `hostLE : Bool` parameter
    (`true` = little-endian host).  `memBytes hostLE v` is the byte sequence
    a `u16` with numeric value `v` occupies in host memory.
-/

/-- Two's-complement reinterpretation of a `usize` value as an `i32`
(the Rust cast `n as i32`). -/
def i32OfUsize (n : Nat) : Int :=
  if n % 2 ^ 32 < 2 ^ 31 then ((n % 2 ^ 32 : Nat) : Int)
  else ((n % 2 ^ 32 : Nat) : Int) - 2 ^ 32

/-- Two's-complement reinterpretation of an `i32` value as a `usize` on a
64-bit host (the Rust cast `v as usize`). -/
def usizeOfI32 (v : Int) : Nat :=
  (v % 2 ^ 64).toNat

/-- Byte swap of a 16-bit value. -/
def bswap16 (v : Nat) : Nat :=
  (v % 256) * 256 + (v / 256) % 256

/-- Model of `u16::to_be` (identical to `u16::from_be`): on a little-endian
host the bytes are swapped, on a big-endian host it is the identity. -/
def u16ToBe (hostLE : Bool) (v : Nat) : Nat :=
  if hostLE then bswap16 v else v

/-- Model of `u16::to_le` (identical to `u16::from_le`): on a little-endian
host it is the identity, on a big-endian host the bytes are swapped. -/
def u16ToLe (hostLE : Bool) (v : Nat) : Nat :=
  if hostLE then v else bswap16 v

/-- The two bytes a `u16` of numeric value `v` occupies in host memory, in
address order. -/
def memBytes (hostLE : Bool) (v : Nat) : List Nat :=
  if hostLE then [v % 256, v / 256 % 256] else [v / 256 % 256, v % 256]

/-- Model of `embedded_graphics::geometry::Point`: a pair of `i32`. -/
structure Point where
  x : Int
  y : Int
deriving DecidableEq

/-- Model of the `FrameBufferBackend` trait from `src/backends.rs`: a state
type `B` of pixel colors `C` with indexed `set`/`get` and an element count.
`set`/`get` return `none` on the panics the corresponding Rust indexing
would raise. -/
structure FrameBufferBackend (B C : Type) where
  set : B → Nat → C → Option B
  get : B → Nat → Option C
  nr_elements : B → Nat

/-- Model of `FrameBuf` from `src/lib.rs`. -/
structure FrameBuf (B C : Type) where
  data : B
  width : Nat
  height : Nat

/-- Model of `FrameBuf::new`: the `assert_eq!(data.nr_elements(), width * height)`
panic is `none`. -/
def FrameBuf.new (bk : FrameBufferBackend B C) (data : B) (width height : Nat) :
    Option (FrameBuf B C) :=
  if bk.nr_elements data = width * height then
    some { data := data, width := width, height := height }
  else
    none

/-- Model of `FrameBuf::point_to_index`:
`self.width * p.y as usize + p.x as usize`. -/
def point_to_index (width : Nat) (p : Point) : Nat :=
  width * usizeOfI32 p.y + usizeOfI32 p.x

/-- Model of `FrameBuf::set_color_at`: delegate to the backend at the
translated index. -/
def set_color_at (bk : FrameBufferBackend B C) (fb : FrameBuf B C) (p : Point)
    (color : C) : Option (FrameBuf B C) :=
  (bk.set fb.data (point_to_index fb.width p) color).map
    (fun d => { fb with data := d })

/-- Model of `FrameBuf::get_color_at`: delegate to the backend at the
translated index. -/
def get_color_at (bk : FrameBufferBackend B C) (fb : FrameBuf B C) (p : Point) :
    Option C :=
  bk.get fb.data (point_to_index fb.width p)

/-- The exact in-range predicate of the spec: the point lies in
`[0,width) × [0,height)`. -/
def InRange (width height : Nat) (p : Point) : Prop :=
  0 ≤ p.x ∧ p.x < (width : Int) ∧ 0 ≤ p.y ∧ p.y < (height : Int)

instance (width height : Nat) (p : Point) : Decidable (InRange width height p) := by
  unfold InRange; infer_instance

/-- The bounds check of `DrawTarget::draw_iter` exactly as written in the
source: `coord.x >= 0 && coord.x < self.width as i32 && coord.y >= 0 &&
coord.y < self.height as i32`. -/
def inRangeCheck (width height : Nat) (p : Point) : Bool :=
  decide (0 ≤ p.x) && decide (p.x < i32OfUsize width) &&
  decide (0 ≤ p.y) && decide (p.y < i32OfUsize height)

/-- Model of the direct backend `impl FrameBufferBackend for &mut [C; N]`:
plain indexed store/load into an array of colors (out of range panics). -/
def directBackend (C : Type) : FrameBufferBackend (List C) C where
  set d index color := if index < d.length then some (d.set index color) else none
  get d index := d[index]?
  nr_elements d := d.length

/-- Model of the `EndianCorrection` enum. -/
inductive EndianCorrection where
  | toLittleEndian
  | toBigEndian
deriving DecidableEq

/-- Model of the `EndianCorrectedBuffer` state: a slice of colors plus the
endian target fixed at construction. -/
structure EndianCorrectedBuffer (C : Type) where
  data : List C
  endian : EndianCorrection

/-- The conversions required of the color type of an `EndianCorrectedBuffer`:
`IntoStorage<Storage = u16>` (`intoStorage`) and `From<RawU16>`
(`fromStorage`). -/
structure U16Storage (C : Type) where
  intoStorage : C → Nat
  fromStorage : Nat → C

/-- Model of `impl FrameBufferBackend for EndianCorrectedBuffer`:
`set` stores `RawU16::new(color.into_storage().to_be()).into()` (resp.
`.to_le()`), `get` returns `C::from(RawU16::new(u16::from_be(raw)))` (resp.
`from_le`), `nr_elements` is the slice length. -/
def endianBackend (s : U16Storage C) (hostLE : Bool) :
    FrameBufferBackend (EndianCorrectedBuffer C) C where
  set b index color :=
    let v : C :=
      match b.endian with
      | EndianCorrection.toBigEndian =>
          s.fromStorage (u16ToBe hostLE (s.intoStorage color))
      | EndianCorrection.toLittleEndian =>
          s.fromStorage (u16ToLe hostLE (s.intoStorage color))
    if index < b.data.length then
      some { b with data := b.data.set index v }
    else none
  get b index :=
    (b.data[index]?).map (fun stored =>
      match b.endian with
      | EndianCorrection.toBigEndian =>
          s.fromStorage (u16ToBe hostLE (s.intoStorage stored))
      | EndianCorrection.toLittleEndian =>
          s.fromStorage (u16ToLe hostLE (s.intoStorage stored)))
  nr_elements b := b.data.length

/-- Model of `Rgb565`: in `embedded-graphics` the struct wraps its raw
16-bit storage value, so it is a number below 2^16. -/
def Rgb565 : Type := Fin 65536

instance : DecidableEq Rgb565 := instDecidableEqFin 65536

instance : Inhabited Rgb565 := ⟨(⟨0, by omega⟩ : Fin 65536)⟩

/-- Model of `Rgb565::new(r, g, b)`: components masked into the 5-6-5 raw
layout. -/
def Rgb565.new (r g b : Nat) : Rgb565 :=
  ⟨(r % 32) * 2048 + (g % 64) * 32 + b % 32, by omega⟩

/-- `Rgb565::RED`, raw value `0b11111_000000_00000 = 0xF800`. -/
def Rgb565.RED : Rgb565 := Rgb565.new 31 0 0

/-- `Rgb565::BLUE`, raw value `0b00000_000000_11111 = 0x001F`. -/
def Rgb565.BLUE : Rgb565 := Rgb565.new 0 0 31

/-- The `IntoStorage`/`From<RawU16>` conversions of `Rgb565`: both are the
identity on the raw 16-bit value. -/
def rgb565Storage : U16Storage Rgb565 where
  intoStorage c := c.val
  fromStorage v := ⟨v % 65536, by omega⟩

/-- Model of `DrawTarget::draw_iter`: walk the pixel stream, bounds-check
each coordinate exactly as the source does, and write the in-range ones. -/
def draw_iter (bk : FrameBufferBackend B C) (fb : FrameBuf B C) :
    List (Point × C) → Option (FrameBuf B C)
  | [] => some fb
  | (p, color) :: rest =>
    if inRangeCheck fb.width fb.height p then
      match set_color_at bk fb p color with
      | none => none
      | some fb1 => draw_iter bk fb1 rest
    else
      draw_iter bk fb rest

/-- Sequential execution of `set_color_at` over a list of writes; the common
core of `draw_iter` and `clear`. -/
def writeSeq (bk : FrameBufferBackend B C) (fb : FrameBuf B C) :
    List (Point × C) → Option (FrameBuf B C)
  | [] => some fb
  | (p, color) :: rest =>
    match set_color_at bk fb p color with
    | none => none
    | some fb1 => writeSeq bk fb1 rest

/-- The inner loop of `DrawTarget::clear`: `for x in 0..self.width`,
writing `Point::new(x as i32, y as i32)`. -/
def clearLoopX (bk : FrameBufferBackend B C) (y : Nat) (color : C) :
    List Nat → FrameBuf B C → Option (FrameBuf B C)
  | [], fb => some fb
  | x :: xs, fb =>
    match set_color_at bk fb ⟨i32OfUsize x, i32OfUsize y⟩ color with
    | none => none
    | some fb1 => clearLoopX bk y color xs fb1

/-- The outer loop of `DrawTarget::clear`: `for y in 0..self.height`. -/
def clearLoopY (bk : FrameBufferBackend B C) (color : C) :
    List Nat → FrameBuf B C → Option (FrameBuf B C)
  | [], fb => some fb
  | y :: ys, fb =>
    match clearLoopX bk y color (List.range fb.width) fb with
    | none => none
    | some fb1 => clearLoopY bk color ys fb1

/-- Model of `DrawTarget::clear`: the two nested loops of the source. -/
def clear (bk : FrameBufferBackend B C) (fb : FrameBuf B C) (color : C) :
    Option (FrameBuf B C) :=
  clearLoopY bk color (List.range fb.height) fb

/-- Model of the `PixelIterator` state: the running index. -/
structure PixelIterator where
  index : Nat

/-- Model of `IntoIterator::into_iter` for `&FrameBuf`: a fresh iterator at
index 0. -/
def FrameBuf.intoIter (_fb : FrameBuf B C) : PixelIterator :=
  { index := 0 }

/-- Model of `PixelIterator::next`.  The source divides by `self.fbuf.width`
before the end-of-iteration test, so a zero-width buffer panics (`none`).
Result: `some none` = iteration finished, `some (some (px, it))` = a pixel
and the advanced iterator. -/
def PixelIterator.next (bk : FrameBufferBackend B C) (fb : FrameBuf B C)
    (it : PixelIterator) : Option (Option ((Point × C) × PixelIterator)) :=
  if fb.width = 0 then none
  else
    let y := it.index / fb.width
    let x := it.index - y * fb.width
    if it.index ≥ fb.width * fb.height then some none
    else
      let p : Point := ⟨i32OfUsize x, i32OfUsize y⟩
      match get_color_at bk fb p with
      | none => none
      | some color => some (some ((p, color), { index := it.index + 1 }))

/-- Run the pixel iterator for at most `fuel` steps, collecting the pixels
of a full pass; `none` if any step panics. -/
def collectPixels (bk : FrameBufferBackend B C) (fb : FrameBuf B C) :
    Nat → PixelIterator → Option (List (Point × C))
  | 0, _ => some []
  | fuel + 1, it =>
    match PixelIterator.next bk fb it with
    | none => none
    | some none => some []
    | some (some (px, it1)) =>
      (collectPixels bk fb fuel it1).map (fun rest => px :: rest)

/-- Model of the `DMACapableFrameBufferBackend` trait: the backend
capability plus a raw starting address for the storage. -/
structure DMACapableFrameBufferBackend (B C : Type) where
  toBackend : FrameBufferBackend B C
  data_ptr : B → Nat

/-- Model of `ReadBuffer::read_buffer` for `FrameBuf`: the backend's raw
address and `self.height * self.width * (size_of::<C>() / size_of::<u8>())`
(`sizeofC` stands for `core::mem::size_of::<C>()`). -/
def read_buffer (dbk : DMACapableFrameBufferBackend B C) (sizeofC : Nat)
    (fb : FrameBuf B C) : Nat × Nat :=
  (dbk.data_ptr fb.data, fb.height * fb.width * (sizeofC / 1))

/-- The color of the last write in `l` that lands on linear index `i`
(writes translated through `point_to_index` at the given `width`). -/
def lastWriteIdx (width : Nat) (l : List (Point × C)) (i : Nat) : Option C :=
  match l with
  | [] => none
  | (p, color) :: rest =>
    match lastWriteIdx width rest i with
    | some c => some c
    | none => if point_to_index width p = i then some color else none

/-- All in-range points in row-major order (`y` outer from 0 to height-1,
`x` inner from 0 to width-1), built with the same `usize → i32` casts the
source uses. -/
def rowMajorPoints (width height : Nat) : List Point :=
  (List.range height).flatMap (fun y =>
    (List.range width).map (fun x => (⟨i32OfUsize x, i32OfUsize y⟩ : Point)))

/-- The properties of a backend that `FrameBuf` relies on: a `set` to a
valid index succeeds, is read back by `get` at the same index, changes no
other index, preserves the element count, and `get` at a valid index
succeeds. Both concrete backends of the crate satisfy them. -/
structure LawfulBackend (bk : FrameBufferBackend B C) : Prop where
  set_isSome : ∀ d i c, i < bk.nr_elements d → (bk.set d i c).isSome
  get_set_same : ∀ d i c d', bk.set d i c = some d' → bk.get d' i = some c
  get_set_ne : ∀ d i c d' j, bk.set d i c = some d' → j ≠ i →
    bk.get d' j = bk.get d j
  nr_set : ∀ d i c d', bk.set d i c = some d' →
    bk.nr_elements d' = bk.nr_elements d
  get_isSome : ∀ d i, i < bk.nr_elements d → (bk.get d i).isSome

theorem i32OfUsize_of_lt {n : Nat} (h : n < 2 ^ 31) : i32OfUsize n = (n : Int) := by
  unfold i32OfUsize
  have hm : n % 2 ^ 32 = n := Nat.mod_eq_of_lt (by omega)
  rw [hm, if_pos h]

theorem usizeOfI32_of_nonneg {v : Int} (h0 : 0 ≤ v) (h : v < 2 ^ 64) :
    usizeOfI32 v = v.toNat := by
  unfold usizeOfI32
  omega

theorem usizeOfI32_i32OfUsize {n : Nat} (h : n < 2 ^ 31) :
    usizeOfI32 (i32OfUsize n) = n := by
  rw [i32OfUsize_of_lt h, usizeOfI32_of_nonneg (by omega) (by omega)]
  omega

theorem bswap16_lt {v : Nat} : bswap16 v < 65536 := by
  unfold bswap16
  omega

theorem bswap16_bswap16 {v : Nat} (h : v < 65536) : bswap16 (bswap16 v) = v := by
  unfold bswap16
  obtain ⟨a, b, ha, hb, rfl⟩ : ∃ a b, a < 256 ∧ b < 256 ∧ v = b * 256 + a :=
    ⟨v % 256, v / 256, by omega, by omega, by omega⟩
  have h1 : (b * 256 + a) % 256 = a := by omega
  have h2 : (b * 256 + a) / 256 = b := by omega
  rw [h1, h2]
  have h3 : (a * 256 + b % 256) % 256 = b := by omega
  have h4 : (a * 256 + b % 256) / 256 = a := by omega
  rw [h3, h4]
  omega

theorem u16ToBe_lt {hostLE : Bool} {v : Nat} (h : v < 65536) :
    u16ToBe hostLE v < 65536 := by
  unfold u16ToBe
  cases hostLE
  · simpa using h
  · simpa using bswap16_lt

theorem u16ToLe_lt {hostLE : Bool} {v : Nat} (h : v < 65536) :
    u16ToLe hostLE v < 65536 := by
  unfold u16ToLe
  cases hostLE
  · simpa using bswap16_lt
  · simpa using h

theorem u16ToBe_u16ToBe {hostLE : Bool} {v : Nat} (h : v < 65536) :
    u16ToBe hostLE (u16ToBe hostLE v) = v := by
  unfold u16ToBe
  cases hostLE
  · simp
  · simpa using bswap16_bswap16 h

theorem u16ToLe_u16ToLe {hostLE : Bool} {v : Nat} (h : v < 65536) :
    u16ToLe hostLE (u16ToLe hostLE v) = v := by
  unfold u16ToLe
  cases hostLE
  · simpa using bswap16_bswap16 h
  · simp

theorem rgb565_intoStorage_lt (c : Rgb565) : rgb565Storage.intoStorage c < 65536 :=
  c.isLt

theorem rgb565_from_into (c : Rgb565) :
    rgb565Storage.fromStorage (rgb565Storage.intoStorage c) = c := by
  apply Fin.ext
  simp [rgb565Storage, Nat.mod_eq_of_lt c.isLt]

theorem rgb565_into_from {v : Nat} (h : v < 65536) :
    rgb565Storage.intoStorage (rgb565Storage.fromStorage v) = v := by
  simp [rgb565Storage, Nat.mod_eq_of_lt h]

theorem directBackend_lawful (C : Type) : LawfulBackend (directBackend C) := by
  constructor
  · intro d i c h
    simp only [directBackend] at h
    simp [directBackend, h]
  · intro d i c d' h
    simp only [directBackend] at h ⊢
    by_cases hi : i < d.length
    · rw [if_pos hi] at h
      obtain rfl := Option.some.inj h
      simp [List.getElem?_set, hi]
    · rw [if_neg hi] at h
      exact absurd h (by simp)
  · intro d i c d' j h hj
    simp only [directBackend] at h ⊢
    by_cases hi : i < d.length
    · rw [if_pos hi] at h
      obtain rfl := Option.some.inj h
      simp [List.getElem?_set, Ne.symm hj]
    · rw [if_neg hi] at h
      exact absurd h (by simp)
  · intro d i c d' h
    simp only [directBackend] at h ⊢
    by_cases hi : i < d.length
    · rw [if_pos hi] at h
      obtain rfl := Option.some.inj h
      simp
    · rw [if_neg hi] at h
      exact absurd h (by simp)
  · intro d i h
    simp only [directBackend] at h ⊢
    simp [List.getElem?_eq_getElem, h]

theorem endianBackend_lawful (s : U16Storage C) (hostLE : Bool)
    (h1 : ∀ c, s.intoStorage c < 65536)
    (h2 : ∀ c, s.fromStorage (s.intoStorage c) = c)
    (h3 : ∀ v, v < 65536 → s.intoStorage (s.fromStorage v) = v) :
    LawfulBackend (endianBackend s hostLE) := by
  constructor
  · intro d i c h
    simp only [endianBackend] at h ⊢
    simp [h]
  · intro d i c d' h
    simp only [endianBackend] at h ⊢
    by_cases hi : i < d.data.length
    · rw [if_pos hi] at h
      obtain rfl := Option.some.inj h
      cases hend : d.endian <;>
        simp [hend, List.getElem?_set, hi, h3 _ (u16ToLe_lt (h1 c)),
          h3 _ (u16ToBe_lt (h1 c)), u16ToLe_u16ToLe (h1 c),
          u16ToBe_u16ToBe (h1 c), h2 c]
    · rw [if_neg hi] at h
      exact absurd h (by simp)
  · intro d i c d' j h hj
    simp only [endianBackend] at h ⊢
    by_cases hi : i < d.data.length
    · rw [if_pos hi] at h
      obtain rfl := Option.some.inj h
      cases hend : d.endian <;>
        simp [hend, List.getElem?_set, Ne.symm hj]
    · rw [if_neg hi] at h
      exact absurd h (by simp)
  · intro d i c d' h
    simp only [endianBackend] at h ⊢
    by_cases hi : i < d.data.length
    · rw [if_pos hi] at h
      obtain rfl := Option.some.inj h
      simp
    · rw [if_neg hi] at h
      exact absurd h (by simp)
  · intro d i h
    simp only [endianBackend] at h ⊢
    simp [List.getElem?_eq_getElem, h]

theorem point_to_index_eq {width height : Nat} {p : Point}
    (hw : width < 2 ^ 31) (hh : height < 2 ^ 31) (hp : InRange width height p) :
    point_to_index width p = width * p.y.toNat + p.x.toNat := by
  obtain ⟨hx0, hxw, hy0, hyh⟩ := hp
  unfold point_to_index
  rw [usizeOfI32_of_nonneg hy0 (by omega), usizeOfI32_of_nonneg hx0 (by omega)]

theorem point_to_index_lt {width height : Nat} {p : Point}
    (hw : width < 2 ^ 31) (hh : height < 2 ^ 31) (hp : InRange width height p) :
    point_to_index width p < width * height := by
  rw [point_to_index_eq hw hh hp]
  obtain ⟨hx0, hxw, hy0, hyh⟩ := hp
  have hx : p.x.toNat < width := by omega
  have hy : p.y.toNat < height := by omega
  calc width * p.y.toNat + p.x.toNat < width * p.y.toNat + width := by omega
    _ = width * (p.y.toNat + 1) := by ring
    _ ≤ width * height := Nat.mul_le_mul_left width hy

theorem point_to_index_inj {width height : Nat} {p q : Point}
    (hw : width < 2 ^ 31) (hh : height < 2 ^ 31)
    (hp : InRange width height p) (hq : InRange width height q)
    (heq : point_to_index width p = point_to_index width q) : p = q := by
  rw [point_to_index_eq hw hh hp, point_to_index_eq hw hh hq] at heq
  obtain ⟨hpx0, hpxw, hpy0, hpyh⟩ := hp
  obtain ⟨hqx0, hqxw, hqy0, hqyh⟩ := hq
  have hx1 : p.x.toNat < width := by omega
  have hx2 : q.x.toNat < width := by omega
  have hwpos : 0 < width := by omega
  have e1 : (width * p.y.toNat + p.x.toNat) / width = p.y.toNat := by
    rw [Nat.mul_add_div hwpos, Nat.div_eq_of_lt hx1]
    omega
  have e2 : (width * q.y.toNat + q.x.toNat) / width = q.y.toNat := by
    rw [Nat.mul_add_div hwpos, Nat.div_eq_of_lt hx2]
    omega
  have hy : p.y.toNat = q.y.toNat := by rw [← e1, ← e2, heq]
  have hx : p.x.toNat = q.x.toNat := by
    rw [hy] at heq
    omega
  cases p with
  | mk px py =>
    cases q with
    | mk qx qy =>
      simp only at hx hy hpx0 hpy0 hqx0 hqy0
      simp only [Point.mk.injEq]
      constructor <;> omega

theorem inRangeCheck_iff {width height : Nat} {p : Point}
    (hw : width < 2 ^ 31) (hh : height < 2 ^ 31) :
    inRangeCheck width height p = true ↔ InRange width height p := by
  unfold inRangeCheck InRange
  rw [i32OfUsize_of_lt hw, i32OfUsize_of_lt hh]
  simp [and_assoc]

theorem mem_rowMajorPoints {width height : Nat} {p : Point}
    (hw : width < 2 ^ 31) (hh : height < 2 ^ 31) :
    p ∈ rowMajorPoints width height ↔ InRange width height p := by
  unfold rowMajorPoints
  simp only [List.mem_flatMap, List.mem_map, List.mem_range]
  constructor
  · rintro ⟨y, hy, x, hx, rfl⟩
    have hxx : i32OfUsize x = (x : Int) := i32OfUsize_of_lt (by omega)
    have hyy : i32OfUsize y = (y : Int) := i32OfUsize_of_lt (by omega)
    refine ⟨?_, ?_, ?_, ?_⟩
    · show 0 ≤ i32OfUsize x
      rw [hxx]; positivity
    · show i32OfUsize x < (width : Int)
      rw [hxx]; exact_mod_cast hx
    · show 0 ≤ i32OfUsize y
      rw [hyy]; positivity
    · show i32OfUsize y < (height : Int)
      rw [hyy]; exact_mod_cast hy
  · rintro ⟨hx0, hxw, hy0, hyh⟩
    refine ⟨p.y.toNat, by omega, p.x.toNat, by omega, ?_⟩
    have hxx : i32OfUsize p.x.toNat = (p.x.toNat : Int) := i32OfUsize_of_lt (by omega)
    have hyy : i32OfUsize p.y.toNat = (p.y.toNat : Int) := i32OfUsize_of_lt (by omega)
    show (⟨i32OfUsize p.x.toNat, i32OfUsize p.y.toNat⟩ : Point) = ⟨p.x, p.y⟩
    rw [hxx, hyy]
    simp only [Point.mk.injEq]
    constructor <;> omega

theorem set_color_at_dims {bk : FrameBufferBackend B C} {fb fb' : FrameBuf B C}
    {p : Point} {c : C} (h : set_color_at bk fb p c = some fb') :
    fb'.width = fb.width ∧ fb'.height = fb.height := by
  simp only [set_color_at] at h
  cases hd : bk.set fb.data (point_to_index fb.width p) c with
  | none => rw [hd] at h; cases h
  | some d =>
    rw [hd] at h
    obtain rfl := Option.some.inj h
    exact ⟨rfl, rfl⟩

theorem writeSeq_dims {bk : FrameBufferBackend B C} {l : List (Point × C)} :
    ∀ {fb fb' : FrameBuf B C}, writeSeq bk fb l = some fb' →
      fb'.width = fb.width ∧ fb'.height = fb.height := by
  induction l with
  | nil =>
    intro fb fb' h
    obtain rfl := Option.some.inj h
    exact ⟨rfl, rfl⟩
  | cons pc rest ih =>
    obtain ⟨p, c⟩ := pc
    intro fb fb' h
    simp only [writeSeq] at h
    cases hs : set_color_at bk fb p c with
    | none => rw [hs] at h; cases h
    | some fb1 =>
      rw [hs] at h
      obtain ⟨hw1, hh1⟩ := set_color_at_dims hs
      obtain ⟨hw2, hh2⟩ := ih h
      exact ⟨hw2.trans hw1, hh2.trans hh1⟩

theorem writeSeq_spec (bk : FrameBufferBackend B C) (hbk : LawfulBackend bk)
    (l : List (Point × C)) :
    ∀ fb : FrameBuf B C,
      (∀ pc ∈ l, point_to_index fb.width pc.1 < bk.nr_elements fb.data) →
      ∃ fb', writeSeq bk fb l = some fb' ∧ fb'.width = fb.width ∧
        fb'.height = fb.height ∧
        bk.nr_elements fb'.data = bk.nr_elements fb.data ∧
        ∀ i, bk.get fb'.data i =
          (match lastWriteIdx fb.width l i with
           | some c => some c
           | none => bk.get fb.data i) := by
  induction l with
  | nil =>
    intro fb _
    exact ⟨fb, rfl, rfl, rfl, rfl, fun i => by simp [lastWriteIdx]⟩
  | cons pc rest ih =>
    obtain ⟨p, c⟩ := pc
    intro fb hl
    have hidx : point_to_index fb.width p < bk.nr_elements fb.data :=
      hl _ (List.mem_cons_self _ _)
    obtain ⟨d1, hd1⟩ := Option.isSome_iff_exists.mp (hbk.set_isSome fb.data _ c hidx)
    have hstep : set_color_at bk fb p c = some { fb with data := d1 } := by
      simp [set_color_at, hd1]
    have hnr : bk.nr_elements d1 = bk.nr_elements fb.data := hbk.nr_set _ _ _ _ hd1
    obtain ⟨fb', h1, h2, h3, h4, h5⟩ := ih { fb with data := d1 } (fun pc hpc => by
      simpa [hnr] using hl pc (List.mem_cons_of_mem _ hpc))
    refine ⟨fb', ?_, h2, h3, by simpa [hnr] using h4, ?_⟩
    · simp [writeSeq, hstep, h1]
    · intro i
      rw [h5 i]
      cases hlast : lastWriteIdx fb.width rest i with
      | some c' => simp [lastWriteIdx, hlast]
      | none =>
        simp only [lastWriteIdx, hlast]
        by_cases hip : point_to_index fb.width p = i
        · subst hip
          simp [hbk.get_set_same _ _ _ _ hd1]
        · simp [hip, hbk.get_set_ne _ _ _ _ _ hd1 (Ne.symm hip)]

theorem lastWriteIdx_isSome_iff {width : Nat} {l : List (Point × C)} {i : Nat} :
    (lastWriteIdx width l i).isSome ↔ ∃ pc ∈ l, point_to_index width pc.1 = i := by
  induction l with
  | nil => simp [lastWriteIdx]
  | cons pc rest ih =>
    obtain ⟨p, c⟩ := pc
    simp only [lastWriteIdx]
    cases hlast : lastWriteIdx width rest i with
    | some c' =>
      show (some c').isSome ↔ _
      simp only [Option.isSome_some, true_iff]
      have := ih.mp (by rw [hlast]; rfl)
      obtain ⟨pc, hpc, hi⟩ := this
      exact ⟨pc, List.mem_cons_of_mem _ hpc, hi⟩
    | none =>
      have hrest : ¬∃ pc ∈ rest, point_to_index width pc.1 = i := by
        rw [← ih, hlast]
        simp
      show (if point_to_index width p = i then some c else none).isSome ↔ _
      by_cases hip : point_to_index width p = i
      · rw [if_pos hip]
        simp only [Option.isSome_some, true_iff]
        exact ⟨(p, c), List.mem_cons_self _ _, hip⟩
      · rw [if_neg hip]
        constructor
        · intro h
          simp at h
        · rintro ⟨pc, hpc, hi⟩
          rcases List.mem_cons.mp hpc with h | h
          · subst h
            exact absurd hi hip
          · exact absurd ⟨pc, h, hi⟩ hrest

theorem lastWriteIdx_mem {width : Nat} {l : List (Point × C)} {i : Nat} {c : C}
    (h : lastWriteIdx width l i = some c) :
    ∃ pc ∈ l, point_to_index width pc.1 = i ∧ pc.2 = c := by
  induction l with
  | nil => cases h
  | cons pc rest ih =>
    obtain ⟨p, c0⟩ := pc
    simp only [lastWriteIdx] at h
    cases hlast : lastWriteIdx width rest i with
    | some c' =>
      rw [hlast] at h
      obtain rfl := Option.some.inj h
      obtain ⟨pc, hpc, hi, hc⟩ := ih hlast
      exact ⟨pc, List.mem_cons_of_mem _ hpc, hi, hc⟩
    | none =>
      rw [hlast] at h
      by_cases hip : point_to_index width p = i
      · rw [if_pos hip] at h
        obtain rfl := Option.some.inj h
        exact ⟨(p, c0), List.mem_cons_self _ _, hip, rfl⟩
      · rw [if_neg hip] at h
        cases h

theorem lastWriteIdx_const {width : Nat} {l : List (Point × C)} {i : Nat} {c : C}
    (hall : ∀ pc ∈ l, pc.2 = c)
    (hex : ∃ pc ∈ l, point_to_index width pc.1 = i) :
    lastWriteIdx width l i = some c := by
  cases hlast : lastWriteIdx width l i with
  | none =>
    have : (lastWriteIdx width l i).isSome := lastWriteIdx_isSome_iff.mpr hex
    rw [hlast] at this
    cases this
  | some c' =>
    obtain ⟨pc, hpc, _, hc⟩ := lastWriteIdx_mem hlast
    rw [← hc, hall pc hpc]

theorem lastWriteIdx_none {width : Nat} {l : List (Point × C)} {i : Nat}
    (h : ¬∃ pc ∈ l, point_to_index width pc.1 = i) :
    lastWriteIdx width l i = none := by
  cases hlast : lastWriteIdx width l i with
  | none => rfl
  | some c' =>
    exact absurd (lastWriteIdx_isSome_iff.mp (by rw [hlast]; rfl)) h

theorem draw_iter_eq_writeSeq (bk : FrameBufferBackend B C)
    (l : List (Point × C)) :
    ∀ fb : FrameBuf B C, draw_iter bk fb l =
      writeSeq bk fb (l.filter (fun pc => inRangeCheck fb.width fb.height pc.1)) := by
  induction l with
  | nil => intro fb; rfl
  | cons pc rest ih =>
    obtain ⟨p, c⟩ := pc
    intro fb
    by_cases hc : inRangeCheck fb.width fb.height p
    · rw [List.filter_cons_of_pos (by simpa using hc)]
      simp only [draw_iter, writeSeq, if_pos hc]
      cases hs : set_color_at bk fb p c with
      | none => rfl
      | some fb1 =>
        obtain ⟨hw1, hh1⟩ := set_color_at_dims hs
        show draw_iter bk fb1 rest =
          writeSeq bk fb1 (rest.filter (fun pc => inRangeCheck fb.width fb.height pc.1))
        rw [ih fb1, hw1, hh1]
    · rw [List.filter_cons_of_neg (by simpa using hc)]
      simp only [draw_iter, if_neg hc]
      exact ih fb

theorem writeSeq_append (bk : FrameBufferBackend B C) (l1 l2 : List (Point × C)) :
    ∀ fb : FrameBuf B C, writeSeq bk fb (l1 ++ l2) =
      match writeSeq bk fb l1 with
      | none => none
      | some fb1 => writeSeq bk fb1 l2 := by
  induction l1 with
  | nil => intro fb; rfl
  | cons pc rest ih =>
    obtain ⟨p, c⟩ := pc
    intro fb
    simp only [List.cons_append, writeSeq]
    cases hs : set_color_at bk fb p c with
    | none => rfl
    | some fb1 => exact ih fb1

theorem clearLoopX_eq (bk : FrameBufferBackend B C) (y : Nat) (c : C) :
    ∀ (xs : List Nat) (fb : FrameBuf B C), clearLoopX bk y c xs fb =
      writeSeq bk fb (xs.map (fun x => (⟨i32OfUsize x, i32OfUsize y⟩, c))) := by
  intro xs
  induction xs with
  | nil => intro fb; rfl
  | cons x rest ih =>
    intro fb
    simp only [clearLoopX, List.map_cons, writeSeq]
    cases hs : set_color_at bk fb ⟨i32OfUsize x, i32OfUsize y⟩ c with
    | none => rfl
    | some fb1 => exact ih fb1

theorem clearLoopY_eq (bk : FrameBufferBackend B C) (c : C) (w : Nat) :
    ∀ (ys : List Nat) (fb : FrameBuf B C), fb.width = w →
      clearLoopY bk c ys fb = writeSeq bk fb (ys.flatMap (fun y =>
        (List.range w).map (fun x => (⟨i32OfUsize x, i32OfUsize y⟩, c)))) := by
  intro ys
  induction ys with
  | nil => intro fb _; rfl
  | cons y rest ih =>
    intro fb hw
    simp only [clearLoopY, List.flatMap_cons, writeSeq_append]
    rw [clearLoopX_eq, hw]
    cases hs : writeSeq bk fb ((List.range w).map
        (fun x => (⟨i32OfUsize x, i32OfUsize y⟩, c))) with
    | none => rfl
    | some fb1 =>
      have hw1 : fb1.width = w := (writeSeq_dims hs).1.trans hw
      exact ih fb1 hw1

theorem clear_eq_writeSeq (bk : FrameBufferBackend B C) (fb : FrameBuf B C)
    (c : C) :
    clear bk fb c =
      writeSeq bk fb ((rowMajorPoints fb.width fb.height).map (fun p => (p, c))) := by
  unfold clear rowMajorPoints
  rw [clearLoopY_eq bk c fb.width (List.range fb.height) fb rfl]
  rw [List.map_flatMap]
  simp only [List.map_map]
  rfl

/-- The point the pixel iterator emits for linear index `k`. -/
def idxPoint (width k : Nat) : Point :=
  ⟨i32OfUsize (k % width), i32OfUsize (k / width)⟩

theorem range'_split (a b : Nat) :
    List.range' 0 (a + b) = List.range' 0 a ++ List.range' a b := by
  have h := List.range'_append 0 a b 1
  simp at h
  rw [Nat.add_comm]
  exact h.symm

theorem rowMajorPoints_eq (w h : Nat) :
    rowMajorPoints w h = (List.range' 0 (w * h)).map (idxPoint w) := by
  induction h with
  | zero => simp [rowMajorPoints]
  | succ h ih =>
    have hmul : w * (h + 1) = w * h + w := by ring
    rw [rowMajorPoints, List.range_succ, List.flatMap_append, ← rowMajorPoints, ih,
      hmul, range'_split (w * h) w, List.map_append]
    congr 1
    simp only [List.flatMap_cons, List.flatMap_nil, List.append_nil]
    rw [List.range'_eq_map_range, List.map_map]
    apply List.map_congr_left
    intro x hx
    rw [List.mem_range] at hx
    have hw : 0 < w := by omega
    have hmod : (w * h + x) % w = x := by
      rw [Nat.mul_add_mod]
      exact Nat.mod_eq_of_lt hx
    have hdiv : (w * h + x) / w = h := by
      rw [Nat.mul_add_div hw, Nat.div_eq_of_lt hx]
      omega
    simp only [Function.comp, idxPoint, hmod, hdiv]

theorem rowMajorPoints_nodup {w h : Nat} (hw : w < 2 ^ 31) (hh : h < 2 ^ 31) :
    (rowMajorPoints w h).Nodup := by
  rw [rowMajorPoints_eq]
  refine List.Nodup.map_on ?_ (by simp [List.nodup_range'])
  intro k1 hk1 k2 hk2 heq
  rw [List.mem_range'_1] at hk1 hk2
  have hw0 : 0 < w := by
    rcases Nat.eq_zero_or_pos w with h0 | h0
    · subst h0
      omega
    · exact h0
  have hm1 : k1 % w < w := Nat.mod_lt _ hw0
  have hm2 : k2 % w < w := Nat.mod_lt _ hw0
  have hd1 : k1 / w < h := Nat.div_lt_of_lt_mul (by omega)
  have hd2 : k2 / w < h := Nat.div_lt_of_lt_mul (by omega)
  unfold idxPoint at heq
  rw [i32OfUsize_of_lt (by omega), i32OfUsize_of_lt (by omega),
    i32OfUsize_of_lt (by omega), i32OfUsize_of_lt (by omega),
    Point.mk.injEq] at heq
  have e1 : k1 % w = k2 % w := by exact_mod_cast heq.1
  have e2 : k1 / w = k2 / w := by exact_mod_cast heq.2
  have q1 := Nat.div_add_mod k1 w
  have q2 := Nat.div_add_mod k2 w
  rw [e1, e2] at q1
  omega

theorem next_of_end {bk : FrameBufferBackend B C} {fb : FrameBuf B C}
    (hw0 : fb.width ≠ 0) {idx : Nat} (h : fb.width * fb.height ≤ idx) :
    PixelIterator.next bk fb ⟨idx⟩ = some none := by
  unfold PixelIterator.next
  rw [if_neg hw0]
  dsimp only
  rw [if_pos (by omega)]

theorem next_of_lt {bk : FrameBufferBackend B C} {fb : FrameBuf B C}
    (hbk : LawfulBackend bk)
    (hinv : bk.nr_elements fb.data = fb.width * fb.height)
    (hw : fb.width < 2 ^ 31) (hh : fb.height < 2 ^ 31)
    {idx : Nat} (hlt : idx < fb.width * fb.height) :
    ∃ c, bk.get fb.data idx = some c ∧
      PixelIterator.next bk fb ⟨idx⟩ =
        some (some ((idxPoint fb.width idx, c), ⟨idx + 1⟩)) := by
  have hw0 : fb.width ≠ 0 := by
    intro h0
    rw [h0] at hlt
    omega
  have hdiv : idx / fb.width < fb.height :=
    Nat.div_lt_of_lt_mul (by omega)
  have hmod : idx % fb.width < fb.width := Nat.mod_lt _ (by omega)
  have hsub : idx - idx / fb.width * fb.width = idx % fb.width := by
    have h := Nat.div_add_mod idx fb.width
    rw [Nat.mul_comm] at h
    omega
  have hpt : point_to_index fb.width (idxPoint fb.width idx) = idx := by
    unfold point_to_index idxPoint
    rw [usizeOfI32_i32OfUsize (by omega), usizeOfI32_i32OfUsize (by omega)]
    exact Nat.div_add_mod idx fb.width
  obtain ⟨c, hc⟩ := Option.isSome_iff_exists.mp
    (hbk.get_isSome fb.data idx (by omega))
  refine ⟨c, hc, ?_⟩
  have hget : get_color_at bk fb (idxPoint fb.width idx) = some c := by
    unfold get_color_at
    rw [hpt]
    exact hc
  unfold PixelIterator.next
  rw [if_neg hw0]
  dsimp only
  rw [if_neg (by omega), hsub]
  unfold idxPoint at hget ⊢
  rw [hget]

theorem collectPixels_spec (bk : FrameBufferBackend B C) [Inhabited C]
    (hbk : LawfulBackend bk) (fb : FrameBuf B C)
    (hinv : bk.nr_elements fb.data = fb.width * fb.height)
    (hw0 : 1 ≤ fb.width) (hw : fb.width < 2 ^ 31) (hh : fb.height < 2 ^ 31) :
    ∀ n idx : Nat, idx + n = fb.width * fb.height →
      collectPixels bk fb (n + 1) ⟨idx⟩ =
        some ((List.range' idx n).map (fun k =>
          (idxPoint fb.width k, (bk.get fb.data k).getD default))) := by
  intro n
  induction n with
  | zero =>
    intro idx hidx
    have hend : PixelIterator.next bk fb ⟨idx⟩ = some none :=
      next_of_end (by omega) (by omega)
    simp [collectPixels, hend]
  | succ n ih =>
    intro idx hidx
    obtain ⟨c, hc, hnext⟩ := next_of_lt hbk hinv hw hh
      (show idx < fb.width * fb.height by omega)
    show (match PixelIterator.next bk fb ⟨idx⟩ with
      | none => none
      | some none => some []
      | some (some (px, it1)) =>
        (collectPixels bk fb (n + 1) it1).map (fun rest => px :: rest)) = _
    rw [hnext]
    show (collectPixels bk fb (n + 1) ⟨idx + 1⟩).map
        (fun rest => (idxPoint fb.width idx, c) :: rest) = _
    rw [ih (idx + 1) (by omega)]
    simp only [Option.map_some']
    rw [show List.range' idx (n + 1) = idx :: List.range' (idx + 1) n from rfl,
      List.map_cons, hc]
    rfl

/-- C1: for every valid index `i` into the backend's storage and every color
`c`, `set(i,c)` followed by `get(i)` returns `c`, both for the direct
array backend and for the endian-corrected backend with either endian
target (the buffer's `endian` field is arbitrary).  For the endian-corrected
backend the hypotheses are the conversion laws of the `IntoStorage<Storage =
u16>`/`From<RawU16>` trait bounds of the source. -/
theorem set_get_roundtrip_backends :
    (∀ (C : Type) (d : List C) (i : Nat) (c : C), i < d.length →
      ∃ d', (directBackend C).set d i c = some d' ∧
        (directBackend C).get d' i = some c) ∧
    (∀ (C : Type) (s : U16Storage C) (hostLE : Bool)
      (b : EndianCorrectedBuffer C) (i : Nat) (c : C),
      (∀ c0, s.intoStorage c0 < 65536) →
      (∀ c0, s.fromStorage (s.intoStorage c0) = c0) →
      (∀ v, v < 65536 → s.intoStorage (s.fromStorage v) = v) →
      i < b.data.length →
      ∃ b', (endianBackend s hostLE).set b i c = some b' ∧
        (endianBackend s hostLE).get b' i = some c) := by
  constructor
  · intro C d i c hi
    have hbk := directBackend_lawful C
    obtain ⟨d', hd'⟩ := Option.isSome_iff_exists.mp (hbk.set_isSome d i c hi)
    exact ⟨d', hd', hbk.get_set_same d i c d' hd'⟩
  · intro C s hostLE b i c h1 h2 h3 hi
    have hbk := endianBackend_lawful s hostLE h1 h2 h3
    obtain ⟨b', hb'⟩ := Option.isSome_iff_exists.mp (hbk.set_isSome b i c hi)
    exact ⟨b', hb', hbk.get_set_same b i c b' hb'⟩

/-- Witness for C1 at concrete inputs: a two-element boolean array, and a
one-element `Rgb565` endian-corrected buffer on a little-endian host. -/
theorem set_get_roundtrip_backends_witness :
    (∃ d', (directBackend Bool).set [false, true] 0 true = some d' ∧
      (directBackend Bool).get d' 0 = some true) ∧
    (∃ b', (endianBackend rgb565Storage true).set
        ⟨[Rgb565.BLUE], EndianCorrection.toBigEndian⟩ 0 Rgb565.RED = some b' ∧
      (endianBackend rgb565Storage true).get b' 0 = some Rgb565.RED) := by
  constructor
  · exact set_get_roundtrip_backends.1 Bool [false, true] 0 true (by decide)
  · exact set_get_roundtrip_backends.2 Rgb565 rgb565Storage true
      ⟨[Rgb565.BLUE], EndianCorrection.toBigEndian⟩ 0 Rgb565.RED
      (fun c0 => c0.isLt) rgb565_from_into (fun v hv => rgb565_into_from hv)
      (by decide)

/-- C2: for every backend, constructing a `FrameBuf` with
`nr_elements ≠ width * height` fails at construction (the buffer never
exists), and with `nr_elements = width * height` construction succeeds and
the buffer reports exactly the given width and height. -/
theorem framebuf_new_size_invariant (B C : Type) (bk : FrameBufferBackend B C)
    (d : B) (width height : Nat) :
    (bk.nr_elements d ≠ width * height → FrameBuf.new bk d width height = none) ∧
    (bk.nr_elements d = width * height →
      ∃ fb, FrameBuf.new bk d width height = some fb ∧
        fb.width = width ∧ fb.height = height ∧ fb.data = d) := by
  constructor
  · intro h
    unfold FrameBuf.new
    rw [if_neg h]
  · intro h
    refine ⟨{ data := d, width := width, height := height }, ?_, rfl, rfl, rfl⟩
    unfold FrameBuf.new
    rw [if_pos h]

/-- Witness for C2: a two-element backend rejected at 3×1 and accepted
at 2×1. -/
theorem framebuf_new_size_invariant_witness :
    FrameBuf.new (directBackend Bool) [false, false] 3 1 = none ∧
    ∃ fb, FrameBuf.new (directBackend Bool) [false, false] 2 1 = some fb ∧
      fb.width = 2 ∧ fb.height = 1 ∧ fb.data = [false, false] := by
  constructor
  · exact (framebuf_new_size_invariant (List Bool) Bool (directBackend Bool)
      [false, false] 3 1).1 (by decide)
  · exact (framebuf_new_size_invariant (List Bool) Bool (directBackend Bool)
      [false, false] 2 1).2 (by decide)

/-- C5: storing `Rgb565::RED` (raw `0xF800`) through the endian-corrected
backend puts bytes `0xF8, 0x00` at the element's storage with
`ToBigEndian`, and `0x00, 0xF8` with `ToLittleEndian`, on either kind of
host. -/
theorem endian_byte_order (hostLE : Bool) :
    (((endianBackend rgb565Storage hostLE).set
        ⟨[Rgb565.BLUE], EndianCorrection.toBigEndian⟩ 0 Rgb565.RED).bind
      (fun b => b.data[0]?)).map
        (fun st => memBytes hostLE (rgb565Storage.intoStorage st)) =
      some [0xF8, 0x00] ∧
    (((endianBackend rgb565Storage hostLE).set
        ⟨[Rgb565.BLUE], EndianCorrection.toLittleEndian⟩ 0 Rgb565.RED).bind
      (fun b => b.data[0]?)).map
        (fun st => memBytes hostLE (rgb565Storage.intoStorage st)) =
      some [0x00, 0xF8] := by
  cases hostLE <;> exact ⟨by decide, by decide⟩

/-- C8: for a DMA-capable backend, `read_buffer` returns the backend's raw
starting address and exactly `width * height * size_of::<C>()` bytes
(`u8` words, `size_of::<u8>() = 1`, so the division is exact). -/
theorem read_buffer_byte_count (B C : Type) (dbk : DMACapableFrameBufferBackend B C)
    (sizeofC : Nat) (fb : FrameBuf B C) :
    read_buffer dbk sizeofC fb =
      (dbk.data_ptr fb.data, fb.width * fb.height * sizeofC) := by
  unfold read_buffer
  rw [Nat.div_one, Nat.mul_comm fb.height fb.width]

/-- C3: `draw_iter` equals the write sequence of exactly the stream's
in-range pixels (out-of-range ones never reach the backend), it always
succeeds, preserves the dimensions, in-range points read back as the last
in-range write landing on their index (or their prior color when none
does), and a coordinate named by no pair of the stream keeps its prior
color. -/
theorem draw_iter_clipping (B C : Type) (bk : FrameBufferBackend B C)
    (fb : FrameBuf B C) (pixels : List (Point × C))
    (hbk : LawfulBackend bk)
    (hinv : bk.nr_elements fb.data = fb.width * fb.height)
    (hw : fb.width < 2 ^ 31) (hh : fb.height < 2 ^ 31) :
    draw_iter bk fb pixels =
      writeSeq bk fb (pixels.filter (fun pc => inRangeCheck fb.width fb.height pc.1)) ∧
    ∃ fb', draw_iter bk fb pixels = some fb' ∧
      fb'.width = fb.width ∧ fb'.height = fb.height ∧
      (∀ p, InRange fb.width fb.height p →
        get_color_at bk fb' p =
          (match lastWriteIdx fb.width
              (pixels.filter (fun pc => inRangeCheck fb.width fb.height pc.1))
              (point_to_index fb.width p) with
            | some c => some c
            | none => get_color_at bk fb p)) ∧
      (∀ p, InRange fb.width fb.height p →
        (∀ pc ∈ pixels, pc.1 ≠ p) →
        get_color_at bk fb' p = get_color_at bk fb p) := by
  have heq := draw_iter_eq_writeSeq bk pixels fb
  refine ⟨heq, ?_⟩
  have hidx : ∀ pc ∈ pixels.filter (fun pc => inRangeCheck fb.width fb.height pc.1),
      point_to_index fb.width pc.1 < bk.nr_elements fb.data := by
    intro pc hpc
    have hmem := List.mem_filter.mp hpc
    have hin : InRange fb.width fb.height pc.1 := (inRangeCheck_iff hw hh).mp hmem.2
    rw [hinv]
    exact point_to_index_lt hw hh hin
  obtain ⟨fb', h1, h2, h3, h4, h5⟩ := writeSeq_spec bk hbk
    (pixels.filter (fun pc => inRangeCheck fb.width fb.height pc.1)) fb hidx
  refine ⟨fb', heq.trans h1, h2, h3, ?_, ?_⟩
  · intro p hp
    unfold get_color_at
    rw [h2, h5 (point_to_index fb.width p)]
  · intro p hp hnot
    unfold get_color_at
    rw [h2, h5 (point_to_index fb.width p)]
    have hnone : lastWriteIdx fb.width
        (pixels.filter (fun pc => inRangeCheck fb.width fb.height pc.1))
        (point_to_index fb.width p) = none := by
      apply lastWriteIdx_none
      rintro ⟨pc, hpc, hi⟩
      have hmem := List.mem_filter.mp hpc
      have hin : InRange fb.width fb.height pc.1 := (inRangeCheck_iff hw hh).mp hmem.2
      exact hnot pc hmem.1 (point_to_index_inj hw hh hin hp hi)
    rw [hnone]

/-- Witness for C3: a 2×1 boolean buffer fed one in-range and one
out-of-range pixel; the call succeeds. -/
theorem draw_iter_clipping_witness :
    ∃ fb', draw_iter (directBackend Bool) ⟨[false, false], 2, 1⟩
        [(⟨0, 0⟩, true), (⟨5, 0⟩, true)] = some fb' ∧ fb'.width = 2 := by
  obtain ⟨-, fb', h1, h2, -, -, -⟩ := draw_iter_clipping (List Bool) Bool
    (directBackend Bool) ⟨[false, false], 2, 1⟩ [(⟨0, 0⟩, true), (⟨5, 0⟩, true)]
    (directBackend_lawful Bool) rfl (by decide) (by decide)
  exact ⟨fb', h1, h2⟩

/-- C6: after `clear(color)` succeeds, `get_color_at p = color` for every
in-range point `p` (so no in-range pixel holds any other color). -/
theorem clear_sets_all (B C : Type) (bk : FrameBufferBackend B C)
    (fb : FrameBuf B C) (color : C) (hbk : LawfulBackend bk)
    (hinv : bk.nr_elements fb.data = fb.width * fb.height)
    (hw : fb.width < 2 ^ 31) (hh : fb.height < 2 ^ 31) :
    ∃ fb', clear bk fb color = some fb' ∧
      fb'.width = fb.width ∧ fb'.height = fb.height ∧
      ∀ p, InRange fb.width fb.height p → get_color_at bk fb' p = some color := by
  rw [clear_eq_writeSeq]
  have hidx : ∀ pc ∈ (rowMajorPoints fb.width fb.height).map (fun p => (p, color)),
      point_to_index fb.width pc.1 < bk.nr_elements fb.data := by
    intro pc hpc
    obtain ⟨q, hq, rfl⟩ := List.mem_map.mp hpc
    have hin : InRange fb.width fb.height q := (mem_rowMajorPoints hw hh).mp hq
    rw [hinv]
    exact point_to_index_lt hw hh hin
  obtain ⟨fb', h1, h2, h3, h4, h5⟩ := writeSeq_spec bk hbk
    ((rowMajorPoints fb.width fb.height).map (fun p => (p, color))) fb hidx
  refine ⟨fb', h1, h2, h3, ?_⟩
  intro p hp
  unfold get_color_at
  rw [h2, h5 (point_to_index fb.width p)]
  have hsome : lastWriteIdx fb.width
      ((rowMajorPoints fb.width fb.height).map (fun p => (p, color)))
      (point_to_index fb.width p) = some color := by
    apply lastWriteIdx_const
    · intro pc hpc
      obtain ⟨q, hq, rfl⟩ := List.mem_map.mp hpc
      rfl
    · exact ⟨(p, color),
        List.mem_map_of_mem _ ((mem_rowMajorPoints hw hh).mpr hp), rfl⟩
  rw [hsome]

/-- Witness for C6: a 2×2 boolean buffer cleared to `true` reads back
`true` at the in-range point (1, 1). -/
theorem clear_sets_all_witness :
    ∃ fb', clear (directBackend Bool) ⟨[false, false, false, false], 2, 2⟩ true =
        some fb' ∧
      get_color_at (directBackend Bool) fb' ⟨1, 1⟩ = some true := by
  obtain ⟨fb', h1, -, -, h4⟩ := clear_sets_all (List Bool) Bool
    (directBackend Bool) ⟨[false, false, false, false], 2, 2⟩ true
    (directBackend_lawful Bool) rfl (by decide) (by decide)
  exact ⟨fb', h1, h4 ⟨1, 1⟩ (by decide)⟩

/-- C7: `clear(color)` produces the (literally) identical result as feeding
`draw_iter` the full row-major coordinate stream paired with `color`, and
hence the two are observationally equivalent through `get_color_at`. -/
theorem clear_equiv_draw_iter (B C : Type) (bk : FrameBufferBackend B C)
    (fb : FrameBuf B C) (color : C)
    (hw : fb.width < 2 ^ 31) (hh : fb.height < 2 ^ 31) :
    clear bk fb color =
      draw_iter bk fb ((rowMajorPoints fb.width fb.height).map (fun p => (p, color))) ∧
    ∀ p, (clear bk fb color).bind (fun fb1 => get_color_at bk fb1 p) =
      (draw_iter bk fb ((rowMajorPoints fb.width fb.height).map (fun p => (p, color)))).bind
        (fun fb2 => get_color_at bk fb2 p) := by
  have hfilter : ((rowMajorPoints fb.width fb.height).map (fun p => (p, color))).filter
      (fun pc => inRangeCheck fb.width fb.height pc.1) =
      (rowMajorPoints fb.width fb.height).map (fun p => (p, color)) := by
    apply List.filter_eq_self.mpr
    intro pc hpc
    obtain ⟨q, hq, rfl⟩ := List.mem_map.mp hpc
    exact (inRangeCheck_iff hw hh).mpr ((mem_rowMajorPoints hw hh).mp hq)
  have heq : clear bk fb color =
      draw_iter bk fb ((rowMajorPoints fb.width fb.height).map (fun p => (p, color))) := by
    rw [clear_eq_writeSeq, draw_iter_eq_writeSeq, hfilter]
  exact ⟨heq, fun p => by rw [heq]⟩

/-- Witness for C7: on a concrete 2×2 boolean buffer, `clear true` and the
full-coordinate `draw_iter` produce the identical result. -/
theorem clear_equiv_draw_iter_witness :
    clear (directBackend Bool) ⟨[false, false, false, false], 2, 2⟩ true =
      draw_iter (directBackend Bool) ⟨[false, false, false, false], 2, 2⟩
        ((rowMajorPoints 2 2).map (fun p => (p, true))) :=
  (clear_equiv_draw_iter (List Bool) Bool (directBackend Bool)
    ⟨[false, false, false, false], 2, 2⟩ true (by decide) (by decide)).1

theorem endianBackend_get_set_ne (s : U16Storage C) (hostLE : Bool)
    (b : EndianCorrectedBuffer C) (i j : Nat) (c : C)
    (hi : i < b.data.length) (hj : j ≠ i) :
    ∃ b', (endianBackend s hostLE).set b i c = some b' ∧
      (endianBackend s hostLE).get b' j = (endianBackend s hostLE).get b j := by
  cases hset : (endianBackend s hostLE).set b i c with
  | none =>
    exfalso
    simp only [endianBackend] at hset
    rw [if_pos hi] at hset
    cases hset
  | some b' =>
    refine ⟨b', rfl, ?_⟩
    simp only [endianBackend] at hset
    rw [if_pos hi] at hset
    obtain rfl := Option.some.inj hset
    simp only [endianBackend]
    cases hend : b.endian <;> simp [hend, List.getElem?_set, Ne.symm hj]

/-- C9: a `set` at a valid index changes only that element, for the direct
backend and the endian-corrected backend; consequently `set_color_at` at an
in-range point leaves `get_color_at` unchanged at every other in-range
point, for any backend with the crate's backend properties. -/
theorem set_changes_only_target :
    (∀ (C : Type) (d : List C) (i j : Nat) (c : C), i < d.length → j ≠ i →
      ∃ d', (directBackend C).set d i c = some d' ∧
        (directBackend C).get d' j = (directBackend C).get d j) ∧
    (∀ (C : Type) (s : U16Storage C) (hostLE : Bool)
      (b : EndianCorrectedBuffer C) (i j : Nat) (c : C),
      i < b.data.length → j ≠ i →
      ∃ b', (endianBackend s hostLE).set b i c = some b' ∧
        (endianBackend s hostLE).get b' j = (endianBackend s hostLE).get b j) ∧
    (∀ (B C : Type) (bk : FrameBufferBackend B C), LawfulBackend bk →
      ∀ (fb : FrameBuf B C) (p q : Point) (c : C),
        bk.nr_elements fb.data = fb.width * fb.height →
        fb.width < 2 ^ 31 → fb.height < 2 ^ 31 →
        InRange fb.width fb.height p → InRange fb.width fb.height q → q ≠ p →
        ∃ fb', set_color_at bk fb p c = some fb' ∧
          get_color_at bk fb' q = get_color_at bk fb q) := by
  refine ⟨?_, ?_, ?_⟩
  · intro C d i j c hi hj
    have hbk := directBackend_lawful C
    obtain ⟨d', hd'⟩ := Option.isSome_iff_exists.mp (hbk.set_isSome d i c hi)
    exact ⟨d', hd', hbk.get_set_ne d i c d' j hd' hj⟩
  · intro C s hostLE b i j c hi hj
    exact endianBackend_get_set_ne s hostLE b i j c hi hj
  · intro B C bk hbk fb p q c hinv hw hh hp hq hne
    have hlt := point_to_index_lt hw hh hp
    obtain ⟨d', hd'⟩ := Option.isSome_iff_exists.mp
      (hbk.set_isSome fb.data (point_to_index fb.width p) c (by omega))
    refine ⟨{ fb with data := d' }, by simp [set_color_at, hd'], ?_⟩
    unfold get_color_at
    show bk.get d' (point_to_index fb.width q) = bk.get fb.data (point_to_index fb.width q)
    apply hbk.get_set_ne fb.data (point_to_index fb.width p) c d'
      (point_to_index fb.width q) hd'
    intro hij
    exact hne (point_to_index_inj hw hh hq hp hij)

/-- Witness for C9: the three parts at concrete small inputs. -/
theorem set_changes_only_target_witness :
    (∃ d', (directBackend Bool).set [false, false] 0 true = some d' ∧
      (directBackend Bool).get d' 1 = (directBackend Bool).get [false, false] 1) ∧
    (∃ b', (endianBackend rgb565Storage true).set
        ⟨[Rgb565.BLUE, Rgb565.BLUE], EndianCorrection.toLittleEndian⟩ 0 Rgb565.RED =
          some b' ∧
      (endianBackend rgb565Storage true).get b' 1 =
        (endianBackend rgb565Storage true).get
          ⟨[Rgb565.BLUE, Rgb565.BLUE], EndianCorrection.toLittleEndian⟩ 1) ∧
    (∃ fb', set_color_at (directBackend Bool) ⟨[false, false], 2, 1⟩ ⟨0, 0⟩ true =
        some fb' ∧
      get_color_at (directBackend Bool) fb' ⟨1, 0⟩ =
        get_color_at (directBackend Bool) ⟨[false, false], 2, 1⟩ ⟨1, 0⟩) := by
  refine ⟨?_, ?_, ?_⟩
  · exact set_changes_only_target.1 Bool [false, false] 0 1 true (by decide) (by decide)
  · exact set_changes_only_target.2.1 Rgb565 rgb565Storage true
      ⟨[Rgb565.BLUE, Rgb565.BLUE], EndianCorrection.toLittleEndian⟩ 0 1 Rgb565.RED
      (by decide) (by decide)
  · exact set_changes_only_target.2.2 (List Bool) Bool (directBackend Bool)
      (directBackend_lawful Bool) ⟨[false, false], 2, 1⟩ ⟨0, 0⟩ ⟨1, 0⟩ true rfl
      (by decide) (by decide) (by decide) (by decide) (by decide)

/-- C4 counterexample: a zero-width `FrameBuf` is constructed successfully
(0 elements = 0 × 3), yet a full pass of the pixel iterator yields no list
of pairs at all — `next` divides by the zero width before its
end-of-iteration check and panics — instead of the `0 × 3 = 0` pairs the
claim requires. -/
theorem pixel_iterator_zero_width_counterexample :
    FrameBuf.new (directBackend Unit) [] 0 3 =
      some (⟨[], 0, 3⟩ : FrameBuf (List Unit) Unit) ∧
    ∀ l : List (Point × Unit),
      collectPixels (directBackend Unit) (⟨[], 0, 3⟩ : FrameBuf (List Unit) Unit)
        (0 * 3 + 1)
        (FrameBuf.intoIter (⟨[], 0, 3⟩ : FrameBuf (List Unit) Unit)) ≠ some l := by
  refine ⟨rfl, ?_⟩
  intro l h
  exact Option.noConfusion h

theorem point_to_index_idxPoint {w h k : Nat} (hw : w < 2 ^ 31) (hh : h < 2 ^ 31)
    (hk : k < w * h) : point_to_index w (idxPoint w k) = k := by
  have hw0 : 0 < w := by
    rcases Nat.eq_zero_or_pos w with h0 | h0
    · subst h0
      omega
    · exact h0
  have hmod : k % w < w := Nat.mod_lt _ hw0
  have hdiv : k / w < h := Nat.div_lt_of_lt_mul (by omega)
  unfold point_to_index idxPoint
  rw [usizeOfI32_i32OfUsize (by omega), usizeOfI32_i32OfUsize (by omega)]
  exact Nat.div_add_mod k w

/-- C4 (amended with `width ≥ 1`): one full pass of the pixel iterator,
started from the fresh iterator `into_iter` yields (index 0), produces
exactly `width * height` pairs, whose points are the row-major enumeration
(`y` outer, `x` inner), each in-range point exactly once, each paired with
the buffer's color at that point. -/
theorem pixel_iterator_full_pass (B C : Type) [Inhabited C]
    (bk : FrameBufferBackend B C) (fb : FrameBuf B C) (hbk : LawfulBackend bk)
    (hinv : bk.nr_elements fb.data = fb.width * fb.height)
    (hw0 : 1 ≤ fb.width) (hw : fb.width < 2 ^ 31) (hh : fb.height < 2 ^ 31) :
    ∃ l, collectPixels bk fb (fb.width * fb.height + 1) (FrameBuf.intoIter fb) =
        some l ∧
      l.length = fb.width * fb.height ∧
      l.map Prod.fst = rowMajorPoints fb.width fb.height ∧
      (rowMajorPoints fb.width fb.height).Nodup ∧
      (∀ pc ∈ l, get_color_at bk fb pc.1 = some pc.2) ∧
      (FrameBuf.intoIter fb).index = 0 := by
  have hcol := collectPixels_spec bk hbk fb hinv hw0 hw hh
    (fb.width * fb.height) 0 (by omega)
  refine ⟨_, hcol, ?_, ?_, rowMajorPoints_nodup hw hh, ?_, rfl⟩
  · simp [List.length_range']
  · rw [rowMajorPoints_eq, List.map_map]
    rfl
  · intro pc hpc
    obtain ⟨k, hk, rfl⟩ := List.mem_map.mp hpc
    rw [List.mem_range'_1] at hk
    have hk2 : k < fb.width * fb.height := by omega
    obtain ⟨c, hc⟩ := Option.isSome_iff_exists.mp
      (hbk.get_isSome fb.data k (by omega))
    show get_color_at bk fb (idxPoint fb.width k) =
      some ((bk.get fb.data k).getD default)
    unfold get_color_at
    rw [point_to_index_idxPoint hw hh hk2, hc]
    rfl

/-- Witness for the amended C4: a 2×1 boolean buffer; the full pass yields
two pixels in row-major order with the buffer's colors. -/
theorem pixel_iterator_full_pass_witness :
    ∃ l, collectPixels (directBackend Bool)
        (⟨[false, true], 2, 1⟩ : FrameBuf (List Bool) Bool) (2 * 1 + 1)
        (FrameBuf.intoIter (⟨[false, true], 2, 1⟩ : FrameBuf (List Bool) Bool)) =
          some l ∧
      l.length = 2 * 1 ∧ l.map Prod.fst = rowMajorPoints 2 1 := by
  obtain ⟨l, h1, h2, h3, -, -, -⟩ := pixel_iterator_full_pass (List Bool) Bool
    (directBackend Bool) ⟨[false, true], 2, 1⟩ (directBackend_lawful Bool) rfl
    (by decide) (by decide) (by decide)
  exact ⟨l, h1, h2, h3⟩

/-- C10: for a buffer of width at least 1, `next` is total: a pixel (with
the advanced iterator) while the index is below `width * height`, the end
marker afterwards, never a panic.  The division by the width happens before
the end-of-iteration check, so this needs `width ≥ 1`, even though a
width-0 `FrameBuf` (with an empty backend) is constructible through
`FrameBuf::new` — on it the very first `next` panics. -/
theorem pixel_iterator_totality (B C : Type) (bk : FrameBufferBackend B C)
    (fb : FrameBuf B C) (hbk : LawfulBackend bk)
    (hinv : bk.nr_elements fb.data = fb.width * fb.height)
    (hw0 : 1 ≤ fb.width) (hw : fb.width < 2 ^ 31) (hh : fb.height < 2 ^ 31) :
    (∀ idx, fb.width * fb.height ≤ idx →
      PixelIterator.next bk fb ⟨idx⟩ = some none) ∧
    (∀ idx, idx < fb.width * fb.height →
      ∃ c, bk.get fb.data idx = some c ∧
        PixelIterator.next bk fb ⟨idx⟩ =
          some (some ((idxPoint fb.width idx, c), ⟨idx + 1⟩))) ∧
    (FrameBuf.new (directBackend Unit) [] 0 5 =
      some (⟨[], 0, 5⟩ : FrameBuf (List Unit) Unit) ∧
    PixelIterator.next (directBackend Unit) (⟨[], 0, 5⟩ : FrameBuf (List Unit) Unit)
      ⟨0⟩ = none) := by
  exact ⟨fun idx h => next_of_end (by omega) h,
    fun idx h => next_of_lt hbk hinv hw hh h, rfl, rfl⟩

/-- Witness for C10 on a 2×1 boolean buffer: `next` at index 2 reports the
end of iteration. -/
theorem pixel_iterator_totality_witness :
    PixelIterator.next (directBackend Bool) ⟨[false, true], 2, 1⟩ ⟨2⟩ = some none :=
  (pixel_iterator_totality (List Bool) Bool (directBackend Bool)
    ⟨[false, true], 2, 1⟩ (directBackend_lawful Bool) rfl (by decide) (by decide)
    (by decide)).1 2 (by decide)
